import Mathlib

/-! Formal model of the motion-sequence alignment and scoring core of a
badminton smash analysis pipeline (compute_similarity.py), together with
proofs of its main behavioural properties: the DTW cost matrix and its
recurrence, validity of the backtraced alignment path, sign and zero
properties of the distance, impact-frame selection, rule-based scoring,
and best-reference selection. -/

open Classical

noncomputable section

/-- Euclidean distance between two coordinate vectors, the per-frame cost
used by the aligner (scipy euclidean). -/
def euclidean (u v : List ℝ) : ℝ :=
  Real.sqrt ((List.zipWith (fun a b => (a - b) ^ 2) u v).sum)

/-- Minimum of three extended-real cost values, as in min(a, b, c). -/
def min3 (a b c : EReal) : EReal := min (min a b) c

/-- Initial DTW cost matrix: cell (0,0) holds 0, every other cell is
plus infinity (np.full with np.inf, then dtw_matrix[0,0] = 0). -/
def dtwInit : ℕ → ℕ → EReal := fun i j => if i = 0 ∧ j = 0 then 0 else ⊤

/-- Pointwise update of a cost matrix at one cell. -/
def matUpd (M : ℕ → ℕ → EReal) (a b : ℕ) (v : EReal) : ℕ → ℕ → EReal :=
  fun i j => if i = a ∧ j = b then v else M i j

/-- One inner-loop step of the DTW fill: writes cell (i0+1, j0+1) with
cost plus the minimum of the three predecessor cells. -/
def dtwStep (A B : List (List ℝ)) (i0 : ℕ) (M : ℕ → ℕ → EReal) (j0 : ℕ) :
    ℕ → ℕ → EReal :=
  matUpd M (i0 + 1) (j0 + 1)
    (((euclidean (A.getD i0 []) (B.getD j0 []) : ℝ) : EReal) +
      min3 (M i0 (j0 + 1)) (M (i0 + 1) j0) (M i0 j0))

/-- One outer-loop step of the DTW fill: fills row i0+1 left to right. -/
def dtwRow (A B : List (List ℝ)) (M : ℕ → ℕ → EReal) (i0 : ℕ) :
    ℕ → ℕ → EReal :=
  (List.range B.length).foldl (dtwStep A B i0) M

/-- The fully filled DTW cost matrix of the two sequences, obtained by the
double loop over i in [1..n], j in [1..m]. -/
def dtwFill (A B : List (List ℝ)) : ℕ → ℕ → EReal :=
  (List.range A.length).foldl (dtwRow A B) dtwInit

/-- Recursive description of the DTW cost recurrence; the iterative fill
is proved to agree with it cell by cell. -/
def dtwRec (A B : List (List ℝ)) : ℕ → ℕ → EReal
  | 0, 0 => 0
  | 0, _ + 1 => ⊤
  | _ + 1, 0 => ⊤
  | i + 1, j + 1 =>
      ((euclidean (A.getD i []) (B.getD j []) : ℝ) : EReal) +
        min3 (dtwRec A B i (j + 1)) (dtwRec A B (i + 1) j) (dtwRec A B i j)
termination_by i j => i + j

/-- Description of the matrix state after the first r rows are filled. -/
def outerState (A B : List (List ℝ)) (r : ℕ) : ℕ → ℕ → EReal :=
  fun i j =>
    if 1 ≤ i ∧ i ≤ r ∧ 1 ≤ j ∧ j ≤ B.length then dtwRec A B i j
    else dtwInit i j

/-- Description of the matrix state while row i0+1 is being filled and the
first c of its cells are done. -/
def innerState (A B : List (List ℝ)) (i0 c : ℕ) : ℕ → ℕ → EReal :=
  fun i j =>
    if 1 ≤ i ∧ i ≤ i0 ∧ 1 ≤ j ∧ j ≤ B.length ∨
        i = i0 + 1 ∧ 1 ≤ j ∧ j ≤ c then dtwRec A B i j
    else dtwInit i j

lemma dtwInit_eq_rec (A B : List (List ℝ)) (i j : ℕ) (h : i = 0 ∨ j = 0) :
    dtwInit i j = dtwRec A B i j := by
  rcases h with h | h
  · subst h
    cases j with
    | zero => simp [dtwInit, dtwRec]
    | succ j => simp [dtwInit, dtwRec]
  · subst h
    cases i with
    | zero => simp [dtwInit, dtwRec]
    | succ i => simp [dtwInit, dtwRec]

lemma innerState_eq_rec (A B : List (List ℝ)) (i0 c i j : ℕ)
    (h : i ≤ i0 ∧ j ≤ B.length ∨ i = i0 + 1 ∧ j ≤ c) :
    innerState A B i0 c i j = dtwRec A B i j := by
  unfold innerState
  split
  · rfl
  · rename_i hc
    apply dtwInit_eq_rec
    rcases h with ⟨h1, h2⟩ | ⟨h1, h2⟩
    · by_cases hi : 1 ≤ i
      · by_cases hj : 1 ≤ j
        · exact absurd (Or.inl ⟨hi, h1, hj, h2⟩) hc
        · right; omega
      · left; omega
    · by_cases hj : 1 ≤ j
      · exact absurd (Or.inr ⟨h1, hj, h2⟩) hc
      · right; omega

lemma inner_fold (A B : List (List ℝ)) (i0 : ℕ) :
    ∀ c, c ≤ B.length →
      (List.range c).foldl (dtwStep A B i0) (outerState A B i0) =
        innerState A B i0 c := by
  intro c
  induction c with
  | zero =>
    intro _
    funext i j
    simp only [List.range_zero, List.foldl_nil, outerState, innerState]
    congr 1
    simp only [eq_iff_iff]
    omega
  | succ c ih =>
    intro hc
    rw [List.range_succ, List.foldl_append, ih (by omega)]
    funext i j
    simp only [List.foldl_cons, List.foldl_nil]
    have h1 : innerState A B i0 c i0 (c + 1) = dtwRec A B i0 (c + 1) :=
      innerState_eq_rec A B i0 c i0 (c + 1) (Or.inl ⟨le_refl _, hc⟩)
    have h2 : innerState A B i0 c (i0 + 1) c = dtwRec A B (i0 + 1) c := by
      rcases Nat.eq_zero_or_pos c with hc0 | hc1
      · subst hc0
        exact innerState_eq_rec A B i0 0 (i0 + 1) 0 (Or.inr ⟨rfl, le_refl _⟩)
      · exact innerState_eq_rec A B i0 c (i0 + 1) c (Or.inr ⟨rfl, le_refl _⟩)
    have h3 : innerState A B i0 c i0 c = dtwRec A B i0 c :=
      innerState_eq_rec A B i0 c i0 c (Or.inl ⟨le_refl _, by omega⟩)
    unfold dtwStep matUpd
    rw [h1, h2, h3]
    by_cases hij : i = i0 + 1 ∧ j = c + 1
    · rw [if_pos hij]
      obtain ⟨rfl, rfl⟩ := hij
      have : innerState A B i0 (c + 1) (i0 + 1) (c + 1) =
          dtwRec A B (i0 + 1) (c + 1) :=
        innerState_eq_rec A B i0 (c + 1) (i0 + 1) (c + 1)
          (Or.inr ⟨rfl, le_refl _⟩)
      rw [this]
      rw [show dtwRec A B (i0 + 1) (c + 1) =
          ((euclidean (A.getD i0 []) (B.getD c []) : ℝ) : EReal) +
            min3 (dtwRec A B i0 (c + 1)) (dtwRec A B (i0 + 1) c)
              (dtwRec A B i0 c) from by rw [dtwRec]]
    · rw [if_neg hij]
      unfold innerState
      congr 1
      simp only [eq_iff_iff]
      omega

lemma outer_fold (A B : List (List ℝ)) :
    ∀ r, r ≤ A.length →
      (List.range r).foldl (dtwRow A B) dtwInit = outerState A B r := by
  intro r
  induction r with
  | zero =>
    intro _
    funext i j
    simp only [List.range_zero, List.foldl_nil, outerState]
    rw [if_neg (by omega)]
  | succ r ih =>
    intro hr
    rw [List.range_succ, List.foldl_append, ih (by omega)]
    simp only [List.foldl_cons, List.foldl_nil]
    unfold dtwRow
    rw [inner_fold A B r B.length (le_refl _)]
    funext i j
    unfold innerState outerState
    congr 1
    simp only [eq_iff_iff]
    omega

/-- The iterative DTW fill agrees with the recurrence on every cell of the
(n+1) x (m+1) matrix. -/
lemma dtwFill_eq (A B : List (List ℝ)) (i j : ℕ)
    (hi : i ≤ A.length) (hj : j ≤ B.length) :
    dtwFill A B i j = dtwRec A B i j := by
  unfold dtwFill
  rw [outer_fold A B A.length (le_refl _)]
  unfold outerState
  split
  · rfl
  · rename_i hc
    exact dtwInit_eq_rec A B i j (by omega)

lemma dtwFill_boundary (A B : List (List ℝ)) (i j : ℕ)
    (h : i = 0 ∨ j = 0) :
    dtwFill A B i j = dtwInit i j := by
  unfold dtwFill
  rw [outer_fold A B A.length (le_refl _)]
  unfold outerState
  rw [if_neg (by omega)]

/-- Lexicographic strict order on (cost, cell) candidate triples, the order
used by min() on the Python candidate tuples (cost, i, j). -/
def tLt (x y : EReal × ℕ × ℕ) : Prop :=
  x.1 < y.1 ∨ (x.1 = y.1 ∧ (x.2.1 < y.2.1 ∨ (x.2.1 = y.2.1 ∧ x.2.2 < y.2.2)))

/-- Binary step of Python min over candidate tuples: keep the current value
unless the new one is strictly smaller. -/
def pyMinT (x y : EReal × ℕ × ℕ) : EReal × ℕ × ℕ := if tLt y x then y else x

lemma pyMinT_eq_or (x y : EReal × ℕ × ℕ) : pyMinT x y = x ∨ pyMinT x y = y := by
  unfold pyMinT
  split
  · right; rfl
  · left; rfl

/-- The predecessor cell chosen by the backtrace at cell (i, j): the
minimum of the three candidates (M[i-1,j], i-1, j), (M[i,j-1], i, j-1),
(M[i-1,j-1], i-1, j-1) in the listed order. -/
def nextCell (M : ℕ → ℕ → EReal) (i j : ℕ) : ℕ × ℕ :=
  (pyMinT (pyMinT (M (i - 1) j, i - 1, j) (M i (j - 1), i, j - 1))
    (M (i - 1) (j - 1), i - 1, j - 1)).2

lemma nextCell_cases (M : ℕ → ℕ → EReal) (i j : ℕ) :
    nextCell M i j = (i - 1, j) ∨ nextCell M i j = (i, j - 1) ∨
      nextCell M i j = (i - 1, j - 1) := by
  unfold nextCell
  rcases pyMinT_eq_or (pyMinT (M (i - 1) j, i - 1, j) (M i (j - 1), i, j - 1))
      (M (i - 1) (j - 1), i - 1, j - 1) with h | h
  · rw [h]
    rcases pyMinT_eq_or (M (i - 1) j, i - 1, j) (M i (j - 1), i, j - 1) with
        h2 | h2
    · rw [h2]; left; rfl
    · rw [h2]; right; left; rfl
  · rw [h]; right; right; rfl

lemma nextCell_sum_lt (M : ℕ → ℕ → EReal) (i j : ℕ) :
    (nextCell M (i + 1) (j + 1)).1 + (nextCell M (i + 1) (j + 1)).2 <
      i + 1 + (j + 1) := by
  rcases nextCell_cases M (i + 1) (j + 1) with h | h | h <;>
    simp [h] <;> omega

/-- The DTW backtrace: starting from cell (i, j), while i > 0 and j > 0
record (i-1, j-1) and move to the minimum-cost predecessor. -/
def backtrace (M : ℕ → ℕ → EReal) : ℕ → ℕ → List (ℕ × ℕ)
  | 0, _ => []
  | _ + 1, 0 => []
  | i + 1, j + 1 =>
      (i, j) ::
        backtrace M (nextCell M (i + 1) (j + 1)).1
          (nextCell M (i + 1) (j + 1)).2
termination_by i j => i + j
decreasing_by
  have h := nextCell_sum_lt M i j
  omega

lemma backtrace_zero_left (M : ℕ → ℕ → EReal) (j : ℕ) :
    backtrace M 0 j = [] := by
  rw [backtrace]

lemma backtrace_zero_right (M : ℕ → ℕ → EReal) (i : ℕ) :
    backtrace M i 0 = [] := by
  cases i with
  | zero => rw [backtrace]
  | succ i => rw [backtrace]

lemma backtrace_succ (M : ℕ → ℕ → EReal) (i j : ℕ) :
    backtrace M (i + 1) (j + 1) =
      (i, j) ::
        backtrace M (nextCell M (i + 1) (j + 1)).1
          (nextCell M (i + 1) (j + 1)).2 := by
  rw [backtrace]

/-- The aligner: returns the DTW distance dtw_matrix[n, m] together with
the backtraced alignment path in ascending order. -/
def compare_motion_sequences (user_seq reference_seq : List (List ℝ)) :
    EReal × List (ℕ × ℕ) :=
  (dtwFill user_seq reference_seq user_seq.length reference_seq.length,
    (backtrace (dtwFill user_seq reference_seq) user_seq.length
      reference_seq.length).reverse)

/-- One admissible move of an alignment path: the next pair increases each
index by 0 or 1, at least one of them strictly. -/
def stepOK (x y : ℕ × ℕ) : Prop :=
  (y.1 = x.1 + 1 ∧ y.2 = x.2) ∨ (y.1 = x.1 ∧ y.2 = x.2 + 1) ∨
    (y.1 = x.1 + 1 ∧ y.2 = x.2 + 1)

lemma euclidean_nonneg (u v : List ℝ) : 0 ≤ euclidean u v :=
  Real.sqrt_nonneg _

lemma euclidean_self (v : List ℝ) : euclidean v v = 0 := by
  unfold euclidean
  have h : (List.zipWith (fun a b => (a - b) ^ 2) v v).sum = 0 := by
    induction v with
    | nil => simp
    | cons x xs ih => simp [ih]
  rw [h, Real.sqrt_zero]

lemma min3_le_left (a b c : EReal) : min3 a b c ≤ a :=
  le_trans (min_le_left _ _) (min_le_left _ _)

lemma min3_le_mid (a b c : EReal) : min3 a b c ≤ b :=
  le_trans (min_le_left _ _) (min_le_right _ _)

lemma min3_le_right (a b c : EReal) : min3 a b c ≤ c :=
  min_le_right _ _

lemma le_min3 (a b c d : EReal) (h1 : d ≤ a) (h2 : d ≤ b) (h3 : d ≤ c) :
    d ≤ min3 a b c :=
  le_min (le_min h1 h2) h3

lemma dtwRec_nonneg_aux (A B : List (List ℝ)) :
    ∀ s i j, i + j ≤ s → 0 ≤ dtwRec A B i j := by
  intro s
  induction s with
  | zero =>
    intro i j h
    obtain rfl : i = 0 := by omega
    obtain rfl : j = 0 := by omega
    simp [dtwRec]
  | succ s ih =>
    intro i j h
    cases i with
    | zero =>
      cases j with
      | zero => simp [dtwRec]
      | succ j => simp [dtwRec]
    | succ i =>
      cases j with
      | zero => simp [dtwRec]
      | succ j =>
        rw [show dtwRec A B (i + 1) (j + 1) =
            ((euclidean (A.getD i []) (B.getD j []) : ℝ) : EReal) +
              min3 (dtwRec A B i (j + 1)) (dtwRec A B (i + 1) j)
                (dtwRec A B i j) from by rw [dtwRec]]
        apply add_nonneg
        · exact_mod_cast euclidean_nonneg _ _
        · exact le_min3 _ _ _ _ (ih i (j + 1) (by omega))
            (ih (i + 1) j (by omega)) (ih i j (by omega))

lemma dtwRec_nonneg (A B : List (List ℝ)) (i j : ℕ) :
    0 ≤ dtwRec A B i j :=
  dtwRec_nonneg_aux A B (i + j) i j (le_refl _)

lemma dtwRec_lt_top_aux (A B : List (List ℝ)) :
    ∀ s i j, i + j ≤ s → 1 ≤ i → i ≤ A.length → 1 ≤ j → j ≤ B.length →
      dtwRec A B i j < ⊤ := by
  intro s
  induction s with
  | zero =>
    intro i j h hi1 _ hj1 _
    omega
  | succ s ih =>
    intro i j h hi1 hin hj1 hjm
    obtain ⟨i', rfl⟩ : ∃ i', i = i' + 1 := ⟨i - 1, by omega⟩
    obtain ⟨j', rfl⟩ : ∃ j', j = j' + 1 := ⟨j - 1, by omega⟩
    rw [show dtwRec A B (i' + 1) (j' + 1) =
        ((euclidean (A.getD i' []) (B.getD j' []) : ℝ) : EReal) +
          min3 (dtwRec A B i' (j' + 1)) (dtwRec A B (i' + 1) j')
            (dtwRec A B i' j') from by rw [dtwRec]]
    have hmin : min3 (dtwRec A B i' (j' + 1)) (dtwRec A B (i' + 1) j')
        (dtwRec A B i' j') < ⊤ := by
      rcases Nat.eq_zero_or_pos i' with hi0 | hi0
      · rcases Nat.eq_zero_or_pos j' with hj0 | hj0
        · subst hi0; subst hj0
          refine lt_of_le_of_lt (min3_le_right _ _ _) ?_
          rw [show dtwRec A B 0 0 = 0 from by rw [dtwRec]]
          exact EReal.zero_lt_top
        · subst hi0
          refine lt_of_le_of_lt (min3_le_mid _ _ _) ?_
          exact ih 1 j' (by omega) (by omega) hin hj0 (by omega)
      · rcases Nat.eq_zero_or_pos j' with hj0 | hj0
        · subst hj0
          refine lt_of_le_of_lt (min3_le_left _ _ _) ?_
          exact ih i' 1 (by omega) hi0 (by omega) (by omega) hjm
        · refine lt_of_le_of_lt (min3_le_right _ _ _) ?_
          exact ih i' j' (by omega) hi0 (by omega) hj0 (by omega)
    exact EReal.add_lt_top (EReal.coe_ne_top _) (ne_of_lt hmin)

lemma dtwRec_lt_top (A B : List (List ℝ)) (i j : ℕ)
    (hi1 : 1 ≤ i) (hin : i ≤ A.length) (hj1 : 1 ≤ j) (hjm : j ≤ B.length) :
    dtwRec A B i j < ⊤ :=
  dtwRec_lt_top_aux A B (i + j) i j (le_refl _) hi1 hin hj1 hjm

lemma dtwRec_self_le (A : List (List ℝ)) : ∀ i, dtwRec A A i i ≤ 0 := by
  intro i
  induction i with
  | zero => simp [dtwRec]
  | succ i ih =>
    rw [show dtwRec A A (i + 1) (i + 1) =
        ((euclidean (A.getD i []) (A.getD i []) : ℝ) : EReal) +
          min3 (dtwRec A A i (i + 1)) (dtwRec A A (i + 1) i)
            (dtwRec A A i i) from by rw [dtwRec]]
    rw [euclidean_self, EReal.coe_zero, zero_add]
    exact le_trans (min3_le_right _ _ _) ih

lemma dtw_dist_eq_rec (A B : List (List ℝ)) :
    (compare_motion_sequences A B).1 = dtwRec A B A.length B.length := by
  unfold compare_motion_sequences
  exact dtwFill_eq A B A.length B.length (le_refl _) (le_refl _)

lemma dtw_dist_nonneg (A B : List (List ℝ)) :
    0 ≤ (compare_motion_sequences A B).1 := by
  rw [dtw_dist_eq_rec]
  exact dtwRec_nonneg A B _ _

lemma dtw_dist_self (A : List (List ℝ)) :
    (compare_motion_sequences A A).1 = 0 := by
  rw [dtw_dist_eq_rec]
  exact le_antisymm (dtwRec_self_le A _) (dtwRec_nonneg A A _ _)

lemma nextCell_succ (M : ℕ → ℕ → EReal) (i j : ℕ) :
    nextCell M (i + 1) (j + 1) =
      (pyMinT (pyMinT (M i (j + 1), i, j + 1) (M (i + 1) j, i + 1, j))
        (M i j, i, j)).2 := by
  unfold nextCell
  norm_num

lemma nextCell_11 (M : ℕ → ℕ → EReal)
    (hv : M 0 1 = ⊤) (hh : M 1 0 = ⊤) (h00 : M 0 0 < ⊤) :
    nextCell M 1 1 = (0, 0) := by
  have h := nextCell_succ M 0 0
  simp only [Nat.zero_add] at h
  rw [h, hv, hh]
  unfold pyMinT
  have h1 : ¬ tLt ((⊤ : EReal), 1, 0) ((⊤ : EReal), 0, 1) := by
    rintro (hlt | ⟨_, hlt2 | ⟨heq, _⟩⟩)
    · exact lt_irrefl _ hlt
    · simp at hlt2
    · simp at heq
  have h2 : tLt (M 0 0, 0, 0) ((⊤ : EReal), 0, 1) := Or.inl h00
  rw [if_neg h1, if_pos h2]

lemma nextCell_left (M : ℕ → ℕ → EReal) (j' : ℕ)
    (hv : M 0 (j' + 1) = ⊤) (hd : M 0 j' = ⊤) (hfin : M 1 j' < ⊤) :
    nextCell M 1 (j' + 1) = (1, j') := by
  have h := nextCell_succ M 0 j'
  norm_num at h
  rw [h, hv, hd]
  unfold pyMinT
  have h1 : tLt (M 1 j', 1, j') ((⊤ : EReal), 0, j' + 1) := Or.inl hfin
  have h2 : ¬ tLt ((⊤ : EReal), 0, j') (M 1 j', 1, j') := by
    rintro (hlt | ⟨heq, _⟩)
    · exact not_top_lt hlt
    · exact (ne_of_lt hfin) heq.symm
  rw [if_pos h1, if_neg h2]

lemma nextCell_bottom (M : ℕ → ℕ → EReal) (i' : ℕ)
    (hfin : M i' 1 < ⊤) (hh : M (i' + 1) 0 = ⊤) (hd : M i' 0 = ⊤) :
    nextCell M (i' + 1) 1 = (i', 1) := by
  have h := nextCell_succ M i' 0
  norm_num at h
  rw [h, hh, hd]
  unfold pyMinT
  have h1 : ¬ tLt ((⊤ : EReal), i' + 1, 0) (M i' 1, i', 1) := by
    rintro (hlt | ⟨heq, _⟩)
    · exact not_top_lt hlt
    · exact (ne_of_lt hfin) heq.symm
  have h2 : ¬ tLt ((⊤ : EReal), i', 0) (M i' 1, i', 1) := by
    rintro (hlt | ⟨heq, _⟩)
    · exact not_top_lt hlt
    · exact (ne_of_lt hfin) heq.symm
  rw [if_neg h1, if_neg h2]

lemma backtrace_build (M : ℕ → ℕ → EReal) (i' j' a b : ℕ)
    (hc : nextCell M (i' + 1) (j' + 1) = (a, b))
    (hhd : (backtrace M a b).head? = some (a - 1, b - 1))
    (hlast : (backtrace M a b).getLast? = some (0, 0))
    (hch : List.Chain' (fun x y => stepOK y x) (backtrace M a b))
    (hstep : stepOK (a - 1, b - 1) (i', j')) :
    (backtrace M (i' + 1) (j' + 1)).head? = some (i', j') ∧
    (backtrace M (i' + 1) (j' + 1)).getLast? = some (0, 0) ∧
    List.Chain' (fun x y => stepOK y x) (backtrace M (i' + 1) (j' + 1)) := by
  rw [backtrace_succ, hc]
  cases hbt : backtrace M a b with
  | nil => rw [hbt] at hhd; simp at hhd
  | cons x xs =>
    rw [hbt] at hhd hlast hch
    have hx : x = (a - 1, b - 1) := by
      simpa using hhd
    refine ⟨rfl, ?_, ?_⟩
    · rw [List.getLast?_cons_cons]
      exact hlast
    · rw [List.chain'_cons']
      refine ⟨?_, hch⟩
      intro y hy
      simp only [List.head?_cons, Option.mem_some_iff] at hy
      rw [← hy, hx]
      exact hstep

lemma backtrace_spec (M : ℕ → ℕ → EReal) (n m : ℕ)
    (h00 : M 0 0 < ⊤)
    (M0j : ∀ j, 1 ≤ j → M 0 j = ⊤) (Mi0 : ∀ i, 1 ≤ i → M i 0 = ⊤)
    (Mfin : ∀ i j, 1 ≤ i → i ≤ n → 1 ≤ j → j ≤ m → M i j < ⊤) :
    ∀ s i j, i + j ≤ s → 1 ≤ i → i ≤ n → 1 ≤ j → j ≤ m →
      (backtrace M i j).head? = some (i - 1, j - 1) ∧
      (backtrace M i j).getLast? = some (0, 0) ∧
      List.Chain' (fun x y => stepOK y x) (backtrace M i j) := by
  intro s
  induction s with
  | zero => intro i j h hi1 _ hj1 _; omega
  | succ s ih =>
    intro i j h hi1 hin hj1 hjm
    obtain ⟨i', rfl⟩ : ∃ i', i = i' + 1 := ⟨i - 1, by omega⟩
    obtain ⟨j', rfl⟩ : ∃ j', j = j' + 1 := ⟨j - 1, by omega⟩
    simp only [Nat.add_sub_cancel]
    rcases Nat.eq_zero_or_pos i' with hi0 | hi0
    · rcases Nat.eq_zero_or_pos j' with hj0 | hj0
      · subst hi0; subst hj0
        have hn : nextCell M 1 1 = (0, 0) :=
          nextCell_11 M (M0j 1 (le_refl _)) (Mi0 1 (le_refl _)) h00
        rw [show (0 : ℕ) + 1 = 1 from rfl, backtrace_succ]
        rw [show nextCell M (0 + 1) (0 + 1) = (0, 0) from hn]
        rw [show backtrace M (0, 0).1 (0, 0).2 = [] from
          backtrace_zero_left M 0]
        refine ⟨rfl, rfl, ?_⟩
        simp
      · subst hi0
        have hfin1 : M 1 j' < ⊤ :=
          Mfin 1 j' (le_refl _) (by omega) hj0 (by omega)
        have hn : nextCell M (0 + 1) (j' + 1) = (1, j') := by
          rw [show (0 : ℕ) + 1 = 1 from rfl]
          exact nextCell_left M j' (M0j (j' + 1) (by omega)) (M0j j' hj0)
            hfin1
        obtain ⟨hhd, hlast, hch⟩ :=
          ih 1 j' (by omega) (le_refl _) (by omega) hj0 (by omega)
        have hstep : stepOK ((1 : ℕ) - 1, j' - 1) (0, j') := by
          right; left
          constructor
          · simp
          · simp; omega
        exact backtrace_build M 0 j' 1 j' hn hhd hlast hch hstep
    · rcases Nat.eq_zero_or_pos j' with hj0 | hj0
      · subst hj0
        have hfin1 : M i' 1 < ⊤ :=
          Mfin i' 1 hi0 (by omega) (le_refl _) (by omega)
        have hn : nextCell M (i' + 1) (0 + 1) = (i', 1) := by
          rw [show (0 : ℕ) + 1 = 1 from rfl]
          exact nextCell_bottom M i' hfin1 (Mi0 (i' + 1) (by omega))
            (Mi0 i' hi0)
        obtain ⟨hhd, hlast, hch⟩ :=
          ih i' 1 (by omega) hi0 (by omega) (le_refl _) (by omega)
        have hstep : stepOK (i' - 1, (1 : ℕ) - 1) (i', 0) := by
          left
          constructor
          · simp; omega
          · simp
        exact backtrace_build M i' 0 i' 1 hn hhd hlast hch hstep
      · rcases nextCell_cases M (i' + 1) (j' + 1) with hc | hc | hc <;>
          simp only [Nat.add_sub_cancel] at hc
        · obtain ⟨hhd, hlast, hch⟩ :=
            ih i' (j' + 1) (by omega) hi0 (by omega) (by omega) hjm
          have hstep : stepOK (i' - 1, j' + 1 - 1) (i', j') := by
            left
            constructor
            · simp; omega
            · simp
          exact backtrace_build M i' j' i' (j' + 1) hc hhd hlast hch hstep
        · obtain ⟨hhd, hlast, hch⟩ :=
            ih (i' + 1) j' (by omega) (by omega) hin hj0 (by omega)
          have hstep : stepOK (i' + 1 - 1, j' - 1) (i', j') := by
            right; left
            constructor
            · simp
            · simp; omega
          exact backtrace_build M i' j' (i' + 1) j' hc hhd hlast hch hstep
        · obtain ⟨hhd, hlast, hch⟩ :=
            ih i' j' (by omega) hi0 (by omega) hj0 (by omega)
          have hstep : stepOK (i' - 1, j' - 1) (i', j') := by
            right; right
            constructor
            · simp; omega
            · simp; omega
          exact backtrace_build M i' j' i' j' hc hhd hlast hch hstep

lemma dtwRec_zero_zero (A B : List (List ℝ)) : dtwRec A B 0 0 = 0 := by
  rw [dtwRec]

lemma dtwRec_zero_succ (A B : List (List ℝ)) (j : ℕ) :
    dtwRec A B 0 (j + 1) = ⊤ := by
  rw [dtwRec]

lemma dtwRec_succ_zero (A B : List (List ℝ)) (i : ℕ) :
    dtwRec A B (i + 1) 0 = ⊤ := by
  rw [dtwRec]

lemma dtwRec_succ_succ (A B : List (List ℝ)) (i j : ℕ) :
    dtwRec A B (i + 1) (j + 1) =
      ((euclidean (A.getD i []) (B.getD j []) : ℝ) : EReal) +
        min3 (dtwRec A B i (j + 1)) (dtwRec A B (i + 1) j)
          (dtwRec A B i j) := by
  rw [dtwRec]

/-- Angle at p2 formed by p1-p2-p3, in degrees: arccos of the clipped
normalized dot product, or 0 when either ray vector has zero length. -/
def calculate_angle (p1 p2 p3 : ℝ × ℝ) : ℝ :=
  if Real.sqrt ((p1.1 - p2.1) ^ 2 + (p1.2 - p2.2) ^ 2) = 0 ∨
      Real.sqrt ((p3.1 - p2.1) ^ 2 + (p3.2 - p2.2) ^ 2) = 0 then 0
  else
    Real.arccos (min 1 (max (-1)
      (((p1.1 - p2.1) * (p3.1 - p2.1) + (p1.2 - p2.2) * (p3.2 - p2.2)) /
        (Real.sqrt ((p1.1 - p2.1) ^ 2 + (p1.2 - p2.2) ^ 2) *
          Real.sqrt ((p3.1 - p2.1) ^ 2 + (p3.2 - p2.2) ^ 2))))) *
      (180 / Real.pi)

/-- Per-frame biomechanical feature record produced by analyze_key_poses. -/
structure PoseFeatureRow where
  frame : ℝ
  elbow_angle : ℝ
  shoulder_angle : ℝ
  wrist_height : ℝ
  shoulder_width : ℝ
  hip_width : ℝ
  arm_extension : ℝ

instance : Inhabited PoseFeatureRow := ⟨⟨0, 0, 0, 0, 0, 0, 0⟩⟩

/-- Index of the first occurrence of the minimum value in a list, the
documented behaviour of the idxmin series operation. -/
def idxmin : List ℝ → ℕ
  | [] => 0
  | x :: xs => if xs.getD (idxmin xs) 0 < x ∧ xs ≠ [] then idxmin xs + 1 else 0

/-- Index of the impact frame: position of the minimum wrist height. -/
def impactIdx (rows : List PoseFeatureRow) : ℕ :=
  idxmin (rows.map (fun r => r.wrist_height))

/-- The impact frame itself: the row at the index of minimum wrist
height. -/
def findImpactFrame (rows : List PoseFeatureRow) : PoseFeatureRow :=
  rows.getD (impactIdx rows) default

lemma idxmin_lt_length : ∀ l : List ℝ, l ≠ [] → idxmin l < l.length := by
  intro l hl
  induction l with
  | nil => exact absurd rfl hl
  | cons x xs ih =>
    simp only [idxmin]
    split
    · rename_i hcond
      have := ih hcond.2
      simp only [List.length_cons]
      omega
    · simp

lemma idxmin_le (l : List ℝ) : ∀ k, k < l.length →
    l.getD (idxmin l) 0 ≤ l.getD k 0 := by
  induction l with
  | nil => intro k hk; simp at hk
  | cons x xs ih =>
    intro k hk
    simp only [idxmin]
    split
    · rename_i hcond
      rw [List.getD_cons_succ]
      cases k with
      | zero => rw [List.getD_cons_zero]; exact le_of_lt hcond.1
      | succ k => rw [List.getD_cons_succ]; exact ih k (by simpa using hk)
    · rename_i hcond
      rw [List.getD_cons_zero]
      cases k with
      | zero => rw [List.getD_cons_zero]
      | succ k =>
        rw [List.getD_cons_succ]
        have hk' : k < xs.length := by simpa using hk
        have hne : xs ≠ [] := by
          intro h
          rw [h] at hk'
          simp at hk'
        have hx : x ≤ xs.getD (idxmin xs) 0 := by
          by_contra hcon
          push_neg at hcon
          exact hcond ⟨hcon, hne⟩
        exact le_trans hx (ih k hk')

lemma idxmin_first (l : List ℝ) : ∀ k, k < l.length →
    l.getD k 0 ≤ l.getD (idxmin l) 0 → idxmin l ≤ k := by
  induction l with
  | nil => intro k hk; simp at hk
  | cons x xs ih =>
    intro k hk hle
    by_cases hcond : xs.getD (idxmin xs) 0 < x ∧ xs ≠ []
    · have hidx : idxmin (x :: xs) = idxmin xs + 1 := by
        simp only [idxmin]
        rw [if_pos hcond]
      rw [hidx] at hle ⊢
      rw [List.getD_cons_succ] at hle
      cases k with
      | zero =>
        rw [List.getD_cons_zero] at hle
        exact absurd (lt_of_lt_of_le hcond.1 hle) (lt_irrefl _)
      | succ k =>
        rw [List.getD_cons_succ] at hle
        have := ih k (by simpa using hk) hle
        omega
    · have hidx : idxmin (x :: xs) = 0 := by
        simp only [idxmin]
        rw [if_neg hcond]
      rw [hidx]
      omega

lemma wrist_getD_map (rows : List PoseFeatureRow) :
    ∀ k, k < rows.length →
      (rows.map (fun r => r.wrist_height)).getD k 0 =
        (rows.getD k default).wrist_height := by
  induction rows with
  | nil => intro k hk; simp at hk
  | cons r rs ih =>
    intro k hk
    cases k with
    | zero => simp
    | succ k =>
      simp only [List.map_cons, List.getD_cons_succ]
      exact ih k (by simpa using hk)

/-- Qualitative band attached to the overall form score. -/
inductive Band where
  | excellent
  | good
  | decent
  | needsWork

/-- Band selection from the final score: the if/elif chain on the score
with breakpoints 90, 70, 50. -/
def bandOf (s : ℤ) : Band :=
  if s ≥ 90 then Band.excellent
  else if s ≥ 70 then Band.good
  else if s ≥ 50 then Band.decent
  else Band.needsWork

/-- Structured result of the feedback comparison: one flag per feature,
the overall score, and the qualitative band. -/
structure ComparisonReport where
  elbow_flag : Bool
  shoulder_flag : Bool
  height_flag : Bool
  extension_flag : Bool
  score : ℤ
  band : Band

/-- The comparison and scoring of two impact-frame feature rows: signed
differences user minus reference, a flag per feature when the absolute
difference strictly exceeds its threshold (the angle threshold parameter
for the two angles, 0.05 for the two positional features), and the score
100 with 20, 20, 20, 15 subtracted for the four flags in order. -/
def generate_detailed_feedback (user_impact ref_impact : PoseFeatureRow)
    (threshold : ℝ) : ComparisonReport :=
  let elbow_diff := user_impact.elbow_angle - ref_impact.elbow_angle
  let shoulder_diff := user_impact.shoulder_angle - ref_impact.shoulder_angle
  let height_diff := user_impact.wrist_height - ref_impact.wrist_height
  let extension_diff :=
    user_impact.arm_extension - ref_impact.arm_extension
  let score1 : ℤ := if |elbow_diff| > threshold then 100 - 20 else 100
  let score2 : ℤ := if |shoulder_diff| > threshold then score1 - 20 else score1
  let score3 : ℤ := if |height_diff| > 0.05 then score2 - 20 else score2
  let score4 : ℤ :=
    if |extension_diff| > 0.05 then score3 - 15 else score3
  ⟨decide (|elbow_diff| > threshold), decide (|shoulder_diff| > threshold),
    decide (|height_diff| > 0.05), decide (|extension_diff| > 0.05),
    score4, bandOf score4⟩

lemma bandOf_spec (s : ℤ) :
    (bandOf s = Band.excellent ↔ 90 ≤ s) ∧
    (bandOf s = Band.good ↔ 70 ≤ s ∧ s < 90) ∧
    (bandOf s = Band.decent ↔ 50 ≤ s ∧ s < 70) ∧
    (bandOf s = Band.needsWork ↔ s < 50) := by
  unfold bandOf
  split_ifs with h1 h2 h3 <;> refine ⟨?_, ?_, ?_, ?_⟩ <;> simp <;> omega

/-- Lexicographic strict order on (distance, id) pairs, the order used by
min() on the Python (distance, id) tuples. -/
def pLt (x y : EReal × ℕ) : Prop :=
  x.1 < y.1 ∨ (x.1 = y.1 ∧ x.2 < y.2)

/-- Binary step of Python min over (distance, id) pairs. -/
def pyMinP (x y : EReal × ℕ) : EReal × ℕ := if pLt y x then y else x

/-- The (distance, id) tuple selected by min over the three candidate
pairs built from the three reference alignments. -/
def best_ref_pair (user r1 r2 r3 : List (List ℝ)) (i1 i2 i3 : ℕ) :
    EReal × ℕ :=
  pyMinP (pyMinP ((compare_motion_sequences user r1).1, i1)
      ((compare_motion_sequences user r2).1, i2))
    ((compare_motion_sequences user r3).1, i3)

/-- The selected best reference id: the second component of the minimal
(distance, id) tuple. -/
def best_ref_id (user r1 r2 r3 : List (List ℝ)) (i1 i2 i3 : ℕ) : ℕ :=
  (best_ref_pair user r1 r2 r3 i1 i2 i3).2

lemma pyMinP_spec (x y : EReal × ℕ) :
    (pyMinP x y = x ∨ pyMinP x y = y) ∧
    (pyMinP x y).1 ≤ x.1 ∧ (pyMinP x y).1 ≤ y.1 ∧
    ((pyMinP x y).1 = x.1 → (pyMinP x y).2 ≤ x.2) ∧
    ((pyMinP x y).1 = y.1 → (pyMinP x y).2 ≤ y.2) := by
  unfold pyMinP
  by_cases h : pLt y x
  · rw [if_pos h]
    refine ⟨Or.inr rfl, ?_, le_refl _, ?_, fun _ => le_refl _⟩
    · rcases h with h | ⟨h1, _⟩
      · exact le_of_lt h
      · exact le_of_eq h1
    · intro heq
      rcases h with h | ⟨_, h2⟩
      · exact absurd heq (ne_of_lt h)
      · exact le_of_lt h2
  · rw [if_neg h]
    unfold pLt at h
    push_neg at h
    refine ⟨Or.inl rfl, le_refl _, h.1, fun _ => le_refl _, ?_⟩
    intro heq
    exact h.2 heq.symm

lemma pyMinP3_spec (a b c : EReal × ℕ) :
    (pyMinP (pyMinP a b) c = a ∨ pyMinP (pyMinP a b) c = b ∨
      pyMinP (pyMinP a b) c = c) ∧
    (pyMinP (pyMinP a b) c).1 ≤ a.1 ∧ (pyMinP (pyMinP a b) c).1 ≤ b.1 ∧
    (pyMinP (pyMinP a b) c).1 ≤ c.1 ∧
    ((pyMinP (pyMinP a b) c).1 = a.1 → (pyMinP (pyMinP a b) c).2 ≤ a.2) ∧
    ((pyMinP (pyMinP a b) c).1 = b.1 → (pyMinP (pyMinP a b) c).2 ≤ b.2) ∧
    ((pyMinP (pyMinP a b) c).1 = c.1 → (pyMinP (pyMinP a b) c).2 ≤ c.2) := by
  obtain ⟨hq_or, hq1, hq2, hq3, hq4⟩ := pyMinP_spec a b
  obtain ⟨hp_or, hp1, hp2, hp3, hp4⟩ := pyMinP_spec (pyMinP a b) c
  refine ⟨?_, le_trans hp1 hq1, le_trans hp1 hq2, hp2, ?_, ?_, hp4⟩
  · rcases hp_or with h | h
    · rw [h]
      rcases hq_or with h2 | h2
      · left; exact h2
      · right; left; exact h2
    · right; right; exact h
  · intro h
    have h1 : (pyMinP a b).1 = a.1 :=
      le_antisymm hq1 (by rw [← h]; exact hp1)
    have h2 : (pyMinP (pyMinP a b) c).1 = (pyMinP a b).1 := by
      rw [h, h1]
    exact le_trans (hp3 h2) (hq3 h1)
  · intro h
    have h1 : (pyMinP a b).1 = b.1 :=
      le_antisymm hq2 (by rw [← h]; exact hp1)
    have h2 : (pyMinP (pyMinP a b) c).1 = (pyMinP a b).1 := by
      rw [h, h1]
    exact le_trans (hp3 h2) (hq4 h1)

/-- C1: for every pair of non-empty sequences the aligner computes a cost
matrix of shape (n+1)x(m+1) with cost(0,0) = 0, plus infinity on every
other boundary cell, the recurrence cost(i,j) = euclidean(A[i-1], B[j-1])
+ min(cost(i-1,j), cost(i,j-1), cost(i-1,j-1)) for i,j >= 1, and returns
cost(n,m) as the DTW distance. -/
theorem dtw_matrix_correct (A B : List (List ℝ)) (_hA : A ≠ [])
    (_hB : B ≠ []) :
    dtwFill A B 0 0 = 0 ∧
    (∀ j, 1 ≤ j → j ≤ B.length → dtwFill A B 0 j = ⊤) ∧
    (∀ i, 1 ≤ i → i ≤ A.length → dtwFill A B i 0 = ⊤) ∧
    (∀ i j, 1 ≤ i → i ≤ A.length → 1 ≤ j → j ≤ B.length →
      dtwFill A B i j =
        ((euclidean (A.getD (i - 1) []) (B.getD (j - 1) []) : ℝ) : EReal) +
          min3 (dtwFill A B (i - 1) j) (dtwFill A B i (j - 1))
            (dtwFill A B (i - 1) (j - 1))) ∧
    (compare_motion_sequences A B).1 = dtwFill A B A.length B.length := by
  refine ⟨?_, ?_, ?_, ?_, rfl⟩
  · rw [dtwFill_boundary A B 0 0 (Or.inl rfl)]
    unfold dtwInit
    rw [if_pos ⟨rfl, rfl⟩]
  · intro j hj1 _
    rw [dtwFill_boundary A B 0 j (Or.inl rfl)]
    unfold dtwInit
    rw [if_neg (by omega)]
  · intro i hi1 _
    rw [dtwFill_boundary A B i 0 (Or.inr rfl)]
    unfold dtwInit
    rw [if_neg (by omega)]
  · intro i j hi1 hin hj1 hjm
    obtain ⟨i', rfl⟩ : ∃ i', i = i' + 1 := ⟨i - 1, by omega⟩
    obtain ⟨j', rfl⟩ : ∃ j', j = j' + 1 := ⟨j - 1, by omega⟩
    simp only [Nat.add_sub_cancel]
    rw [dtwFill_eq A B (i' + 1) (j' + 1) hin hjm]
    rw [dtwFill_eq A B i' (j' + 1) (by omega) hjm]
    rw [dtwFill_eq A B (i' + 1) j' hin (by omega)]
    rw [dtwFill_eq A B i' j' (by omega) (by omega)]
    exact dtwRec_succ_succ A B i' j'

/-- Witness for C1 at A = [[0]], B = [[1]]. -/
theorem dtw_matrix_correct_witness :
    dtwFill [[(0 : ℝ)]] [[(1 : ℝ)]] 0 0 = 0 ∧
    dtwFill [[(0 : ℝ)]] [[(1 : ℝ)]] 1 1 =
      ((euclidean ([[(0 : ℝ)]].getD 0 []) ([[(1 : ℝ)]].getD 0 []) : ℝ) :
          EReal) +
        min3 (dtwFill [[(0 : ℝ)]] [[(1 : ℝ)]] 0 1)
          (dtwFill [[(0 : ℝ)]] [[(1 : ℝ)]] 1 0)
          (dtwFill [[(0 : ℝ)]] [[(1 : ℝ)]] 0 0) := by
  have h := dtw_matrix_correct [[(0 : ℝ)]] [[(1 : ℝ)]] (by simp) (by simp)
  refine ⟨h.1, ?_⟩
  have h2 := h.2.2.2.1 1 1 (le_refl _) (by simp) (le_refl _) (by simp)
  simpa using h2

/-- C2: for non-empty inputs the returned alignment path starts at (0,0),
ends at (n-1, m-1), and each consecutive step increases i and/or j by
exactly 0 or 1 with at least one strict increase. -/
theorem dtw_path_valid (A B : List (List ℝ)) (hA : A ≠ []) (hB : B ≠ []) :
    ((compare_motion_sequences A B).2).head? = some (0, 0) ∧
    ((compare_motion_sequences A B).2).getLast? =
      some (A.length - 1, B.length - 1) ∧
    List.Chain' stepOK ((compare_motion_sequences A B).2) := by
  have hn : 1 ≤ A.length := List.length_pos.mpr hA
  have hm : 1 ≤ B.length := List.length_pos.mpr hB
  have M00 : dtwFill A B 0 0 < ⊤ := by
    rw [dtwFill_boundary A B 0 0 (Or.inl rfl)]
    unfold dtwInit
    rw [if_pos ⟨rfl, rfl⟩]
    exact EReal.zero_lt_top
  have M0j : ∀ j, 1 ≤ j → dtwFill A B 0 j = ⊤ := by
    intro j hj
    rw [dtwFill_boundary A B 0 j (Or.inl rfl)]
    unfold dtwInit
    rw [if_neg (by omega)]
  have Mi0 : ∀ i, 1 ≤ i → dtwFill A B i 0 = ⊤ := by
    intro i hi
    rw [dtwFill_boundary A B i 0 (Or.inr rfl)]
    unfold dtwInit
    rw [if_neg (by omega)]
  have Mfin : ∀ i j, 1 ≤ i → i ≤ A.length → 1 ≤ j → j ≤ B.length →
      dtwFill A B i j < ⊤ := by
    intro i j h1 h2 h3 h4
    rw [dtwFill_eq A B i j h2 h4]
    exact dtwRec_lt_top A B i j h1 h2 h3 h4
  obtain ⟨hhd, hlast, hch⟩ :=
    backtrace_spec (dtwFill A B) A.length B.length M00 M0j Mi0 Mfin
      (A.length + B.length) A.length B.length (le_refl _) hn (le_refl _)
      hm (le_refl _)
  refine ⟨?_, ?_, ?_⟩
  · show ((backtrace (dtwFill A B) A.length B.length).reverse).head? =
      some (0, 0)
    rw [List.head?_reverse]
    exact hlast
  · show ((backtrace (dtwFill A B) A.length B.length).reverse).getLast? =
      some (A.length - 1, B.length - 1)
    rw [List.getLast?_reverse]
    exact hhd
  · show List.Chain' stepOK
      ((backtrace (dtwFill A B) A.length B.length).reverse)
    rw [List.chain'_reverse]
    exact hch

/-- Witness for C2 at A = B = [[0]]. -/
theorem dtw_path_valid_witness :
    ((compare_motion_sequences [[(0 : ℝ)]] [[(0 : ℝ)]]).2).head? =
      some (0, 0) ∧
    ((compare_motion_sequences [[(0 : ℝ)]] [[(0 : ℝ)]]).2).getLast? =
      some ([[(0 : ℝ)]].length - 1, [[(0 : ℝ)]].length - 1) := by
  have h := dtw_path_valid [[(0 : ℝ)]] [[(0 : ℝ)]] (by simp) (by simp)
  exact ⟨h.1, h.2.1⟩

/-- C3 counterexample: the sequences [[0],[0]] and [[0]] have different
lengths yet DTW distance 0, so a zero distance does not imply that the two
sequences have equal length and are identical pointwise. -/
theorem dtw_zero_distance_counterexample :
    (compare_motion_sequences [[(0 : ℝ)], [(0 : ℝ)]] [[(0 : ℝ)]]).1 = 0 ∧
    ([[(0 : ℝ)], [(0 : ℝ)]] : List (List ℝ)).length ≠
      ([[(0 : ℝ)]] : List (List ℝ)).length := by
  constructor
  · rw [dtw_dist_eq_rec]
    have hzz := dtwRec_zero_zero [[(0 : ℝ)], [(0 : ℝ)]] [[(0 : ℝ)]]
    have hz1 : dtwRec [[(0 : ℝ)], [(0 : ℝ)]] [[(0 : ℝ)]] 0 1 = ⊤ :=
      dtwRec_zero_succ _ _ 0
    have h1z : dtwRec [[(0 : ℝ)], [(0 : ℝ)]] [[(0 : ℝ)]] 1 0 = ⊤ :=
      dtwRec_succ_zero _ _ 0
    have h2z : dtwRec [[(0 : ℝ)], [(0 : ℝ)]] [[(0 : ℝ)]] 2 0 = ⊤ :=
      dtwRec_succ_zero _ _ 1
    have h11 : dtwRec [[(0 : ℝ)], [(0 : ℝ)]] [[(0 : ℝ)]] 1 1 = 0 := by
      have h : dtwRec [[(0 : ℝ)], [(0 : ℝ)]] [[(0 : ℝ)]] 1 1 =
          ((euclidean ([[(0 : ℝ)], [(0 : ℝ)]].getD 0 [])
              ([[(0 : ℝ)]].getD 0 []) : ℝ) : EReal) +
            min3 (dtwRec [[(0 : ℝ)], [(0 : ℝ)]] [[(0 : ℝ)]] 0 1)
              (dtwRec [[(0 : ℝ)], [(0 : ℝ)]] [[(0 : ℝ)]] 1 0)
              (dtwRec [[(0 : ℝ)], [(0 : ℝ)]] [[(0 : ℝ)]] 0 0) :=
        dtwRec_succ_succ _ _ 0 0
      rw [h, hz1, h1z, hzz]
      rw [show ([[(0 : ℝ)], [(0 : ℝ)]].getD 0 []) = [(0 : ℝ)] from rfl]
      rw [show ([[(0 : ℝ)]].getD 0 []) = [(0 : ℝ)] from rfl]
      rw [euclidean_self]
      unfold min3
      rw [min_self, min_eq_right le_top, EReal.coe_zero, zero_add]
    have h21 : dtwRec [[(0 : ℝ)], [(0 : ℝ)]] [[(0 : ℝ)]] 2 1 = 0 := by
      have h : dtwRec [[(0 : ℝ)], [(0 : ℝ)]] [[(0 : ℝ)]] 2 1 =
          ((euclidean ([[(0 : ℝ)], [(0 : ℝ)]].getD 1 [])
              ([[(0 : ℝ)]].getD 0 []) : ℝ) : EReal) +
            min3 (dtwRec [[(0 : ℝ)], [(0 : ℝ)]] [[(0 : ℝ)]] 1 1)
              (dtwRec [[(0 : ℝ)], [(0 : ℝ)]] [[(0 : ℝ)]] 2 0)
              (dtwRec [[(0 : ℝ)], [(0 : ℝ)]] [[(0 : ℝ)]] 1 0) :=
        dtwRec_succ_succ _ _ 1 0
      rw [h, h11, h2z, h1z]
      rw [show ([[(0 : ℝ)], [(0 : ℝ)]].getD 1 []) = [(0 : ℝ)] from rfl]
      rw [show ([[(0 : ℝ)]].getD 0 []) = [(0 : ℝ)] from rfl]
      rw [euclidean_self]
      unfold min3
      rw [min_eq_left le_top, min_eq_left le_top, EReal.coe_zero, zero_add]
    exact h21
  · simp

/-- C3 amended: for non-empty inputs the DTW distance is a non-negative
finite value, and the distance of any sequence to itself is 0; a zero
distance does not, however, force the two sequences to have equal length
(see the counterexample). -/
theorem dtw_distance_nonneg_self_zero (A B : List (List ℝ))
    (hA : A ≠ []) (hB : B ≠ []) :
    0 ≤ (compare_motion_sequences A B).1 ∧
    (compare_motion_sequences A B).1 < ⊤ ∧
    (compare_motion_sequences A A).1 = 0 := by
  refine ⟨dtw_dist_nonneg A B, ?_, dtw_dist_self A⟩
  rw [dtw_dist_eq_rec]
  exact dtwRec_lt_top A B _ _ (List.length_pos.mpr hA) (le_refl _)
    (List.length_pos.mpr hB) (le_refl _)

/-- Witness for the amended C3 at A = [[0]], B = [[1]]. -/
theorem dtw_distance_nonneg_self_zero_witness :
    0 ≤ (compare_motion_sequences [[(0 : ℝ)]] [[(1 : ℝ)]]).1 ∧
    (compare_motion_sequences [[(0 : ℝ)]] [[(0 : ℝ)]]).1 = 0 := by
  have h := dtw_distance_nonneg_self_zero [[(0 : ℝ)]] [[(1 : ℝ)]]
    (by simp) (by simp)
  exact ⟨h.1, h.2.2⟩

/-- C4: each of the four features is flagged exactly when the absolute
signed difference (user minus reference) strictly exceeds that feature's
threshold (the angle threshold for the two angles, 0.05 for the two
positional features), and the score equals 100 minus 20 for a flagged
elbow-angle deviation, 20 for a flagged shoulder-angle deviation, 20 for
a flagged wrist-height deviation and 15 for a flagged arm-extension
deviation. -/
theorem feedback_flags_and_score (u r : PoseFeatureRow) (t : ℝ) :
    ((generate_detailed_feedback u r t).elbow_flag = true ↔
      |u.elbow_angle - r.elbow_angle| > t) ∧
    ((generate_detailed_feedback u r t).shoulder_flag = true ↔
      |u.shoulder_angle - r.shoulder_angle| > t) ∧
    ((generate_detailed_feedback u r t).height_flag = true ↔
      |u.wrist_height - r.wrist_height| > 0.05) ∧
    ((generate_detailed_feedback u r t).extension_flag = true ↔
      |u.arm_extension - r.arm_extension| > 0.05) ∧
    (generate_detailed_feedback u r t).score =
      100 - (if |u.elbow_angle - r.elbow_angle| > t then 20 else 0) -
        (if |u.shoulder_angle - r.shoulder_angle| > t then 20 else 0) -
        (if |u.wrist_height - r.wrist_height| > 0.05 then 20 else 0) -
        (if |u.arm_extension - r.arm_extension| > 0.05 then 15 else 0) := by
  refine ⟨?_, ?_, ?_, ?_, ?_⟩
  · simp [generate_detailed_feedback]
  · simp [generate_detailed_feedback]
  · simp [generate_detailed_feedback]
  · simp [generate_detailed_feedback]
  · simp only [generate_detailed_feedback]
    split_ifs <;> norm_num

/-- C5: the score is always within [0, 100] and the qualitative band is
given by the fixed inclusive lower breakpoints 90 (excellent), 70 (good),
50 (decent), below 50 (needs work). -/
theorem feedback_score_bounds_and_band (u r : PoseFeatureRow) (t : ℝ) :
    0 ≤ (generate_detailed_feedback u r t).score ∧
    (generate_detailed_feedback u r t).score ≤ 100 ∧
    ((generate_detailed_feedback u r t).band = Band.excellent ↔
      90 ≤ (generate_detailed_feedback u r t).score) ∧
    ((generate_detailed_feedback u r t).band = Band.good ↔
      70 ≤ (generate_detailed_feedback u r t).score ∧
        (generate_detailed_feedback u r t).score < 90) ∧
    ((generate_detailed_feedback u r t).band = Band.decent ↔
      50 ≤ (generate_detailed_feedback u r t).score ∧
        (generate_detailed_feedback u r t).score < 70) ∧
    ((generate_detailed_feedback u r t).band = Band.needsWork ↔
      (generate_detailed_feedback u r t).score < 50) := by
  have hband : (generate_detailed_feedback u r t).band =
      bandOf ((generate_detailed_feedback u r t).score) := rfl
  have hb := bandOf_spec ((generate_detailed_feedback u r t).score)
  refine ⟨?_, ?_, ?_, ?_, ?_, ?_⟩
  · simp only [generate_detailed_feedback]
    split_ifs <;> norm_num
  · simp only [generate_detailed_feedback]
    split_ifs <;> norm_num
  · rw [hband]; exact hb.1
  · rw [hband]; exact hb.2.1
  · rw [hband]; exact hb.2.2.1
  · rw [hband]; exact hb.2.2.2

/-- C6: impact-frame detection returns the row whose wrist height is
minimal over the sequence and, when several rows attain the minimum, the
one with the lowest index. -/
theorem impact_frame_min_wrist (rows : List PoseFeatureRow)
    (h : rows ≠ []) :
    impactIdx rows < rows.length ∧
    (∀ k, k < rows.length →
      (findImpactFrame rows).wrist_height ≤
        (rows.getD k default).wrist_height) ∧
    (∀ k, k < rows.length →
      (rows.getD k default).wrist_height ≤
        (findImpactFrame rows).wrist_height → impactIdx rows ≤ k) := by
  unfold findImpactFrame impactIdx
  set m := rows.map (fun r => r.wrist_height) with hm
  have hlen : m.length = rows.length := by
    rw [hm]; exact List.length_map _ _
  have hmne : m ≠ [] := by
    rw [hm]; simpa using h
  have hidx : idxmin m < rows.length := by
    have := idxmin_lt_length m hmne
    omega
  have hbridge : ∀ k, k < rows.length →
      m.getD k 0 = (rows.getD k default).wrist_height := by
    intro k hk
    rw [hm]
    exact wrist_getD_map rows k hk
  refine ⟨hidx, ?_, ?_⟩
  · intro k hk
    have h1 := idxmin_le m k (by omega)
    rw [hbridge k hk, hbridge (idxmin m) hidx] at h1
    exact h1
  · intro k hk hle
    apply idxmin_first m k (by omega)
    rw [hbridge k hk, hbridge (idxmin m) hidx]
    exact hle

/-- Witness for C6 at a one-row sequence. -/
theorem impact_frame_min_wrist_witness :
    impactIdx [(⟨0, 0, 0, 0, 0, 0, 0⟩ : PoseFeatureRow)] <
      [(⟨0, 0, 0, 0, 0, 0, 0⟩ : PoseFeatureRow)].length ∧
    (findImpactFrame [(⟨0, 0, 0, 0, 0, 0, 0⟩ : PoseFeatureRow)]).wrist_height ≤
      ([(⟨0, 0, 0, 0, 0, 0, 0⟩ : PoseFeatureRow)].getD 0
        default).wrist_height := by
  have h := impact_frame_min_wrist [(⟨0, 0, 0, 0, 0, 0, 0⟩ : PoseFeatureRow)]
    (by simp)
  exact ⟨h.1, h.2.1 0 (by simp)⟩

/-- C7 counterexample: three references all at DTW distance 0 from the
user sequence with ids 1, 0, 2 in iteration order; the selector returns
id 0, the smallest id, rather than id 1, the first minimal reference
encountered, because min on (distance, id) tuples breaks distance ties by
comparing the ids. -/
theorem best_ref_tie_counterexample :
    (compare_motion_sequences [[(0 : ℝ)]] [[(0 : ℝ)]]).1 = 0 ∧
    best_ref_id [[(0 : ℝ)]] [[(0 : ℝ)]] [[(0 : ℝ)]] [[(0 : ℝ)]] 1 0 2 = 0 := by
  refine ⟨dtw_dist_self _, ?_⟩
  unfold best_ref_id best_ref_pair pyMinP
  rw [dtw_dist_self]
  have h1 : pLt ((0 : EReal), 0) ((0 : EReal), 1) :=
    Or.inr ⟨rfl, by norm_num⟩
  have h2 : ¬ pLt ((0 : EReal), 2) ((0 : EReal), 0) := by
    rintro (hlt | ⟨_, hlt2⟩)
    · exact lt_irrefl _ hlt
    · simp at hlt2
  rw [if_pos h1, if_neg h2]

/-- C7 amended: selection runs the aligner once per reference and returns
the (distance, id) pair that is lexicographically minimal: its distance
is the minimum of the three distances, and among references attaining
that minimum its id is the smallest (ties are broken by id value, not by
iteration order); the returned id is the second component of that pair. -/
theorem best_ref_lex_min (user r1 r2 r3 : List (List ℝ)) (i1 i2 i3 : ℕ) :
    best_ref_id user r1 r2 r3 i1 i2 i3 =
      (best_ref_pair user r1 r2 r3 i1 i2 i3).2 ∧
    (best_ref_pair user r1 r2 r3 i1 i2 i3 =
        ((compare_motion_sequences user r1).1, i1) ∨
      best_ref_pair user r1 r2 r3 i1 i2 i3 =
        ((compare_motion_sequences user r2).1, i2) ∨
      best_ref_pair user r1 r2 r3 i1 i2 i3 =
        ((compare_motion_sequences user r3).1, i3)) ∧
    (best_ref_pair user r1 r2 r3 i1 i2 i3).1 ≤
      (compare_motion_sequences user r1).1 ∧
    (best_ref_pair user r1 r2 r3 i1 i2 i3).1 ≤
      (compare_motion_sequences user r2).1 ∧
    (best_ref_pair user r1 r2 r3 i1 i2 i3).1 ≤
      (compare_motion_sequences user r3).1 ∧
    ((best_ref_pair user r1 r2 r3 i1 i2 i3).1 =
        (compare_motion_sequences user r1).1 →
      (best_ref_pair user r1 r2 r3 i1 i2 i3).2 ≤ i1) ∧
    ((best_ref_pair user r1 r2 r3 i1 i2 i3).1 =
        (compare_motion_sequences user r2).1 →
      (best_ref_pair user r1 r2 r3 i1 i2 i3).2 ≤ i2) ∧
    ((best_ref_pair user r1 r2 r3 i1 i2 i3).1 =
        (compare_motion_sequences user r3).1 →
      (best_ref_pair user r1 r2 r3 i1 i2 i3).2 ≤ i3) :=
  ⟨rfl, pyMinP3_spec ((compare_motion_sequences user r1).1, i1)
    ((compare_motion_sequences user r2).1, i2)
    ((compare_motion_sequences user r3).1, i3)⟩

/-- Witness for the amended C7: with three equal distances the selected
pair has minimal distance and id at most 1, the id of the first
reference. -/
theorem best_ref_lex_min_witness :
    (best_ref_pair [[(0 : ℝ)]] [[(0 : ℝ)]] [[(0 : ℝ)]] [[(0 : ℝ)]]
        1 0 2).1 ≤
      (compare_motion_sequences [[(0 : ℝ)]] [[(0 : ℝ)]]).1 ∧
    (best_ref_pair [[(0 : ℝ)]] [[(0 : ℝ)]] [[(0 : ℝ)]] [[(0 : ℝ)]]
        1 0 2).2 ≤ 1 := by
  have h := best_ref_lex_min [[(0 : ℝ)]] [[(0 : ℝ)]] [[(0 : ℝ)]]
    [[(0 : ℝ)]] 1 0 2
  refine ⟨h.2.2.1, ?_⟩
  apply h.2.2.2.2.2.1
  rcases h.2.1 with hp | hp | hp <;> rw [hp]

/-- C8 counterexample: on an empty first sequence the aligner does not
fail with a validation error; it returns distance plus infinity and an
empty alignment path. -/
theorem aligner_no_validation_counterexample :
    compare_motion_sequences [] [[(0 : ℝ)]] = (⊤, ([] : List (ℕ × ℕ))) := by
  unfold compare_motion_sequences
  have hd : dtwFill [] [[(0 : ℝ)]] (List.length ([] : List (List ℝ)))
      (List.length [[(0 : ℝ)]]) = ⊤ := by
    rw [dtwFill_boundary [] [[(0 : ℝ)]] (List.length ([] : List (List ℝ)))
      (List.length [[(0 : ℝ)]]) (Or.inl rfl)]
    unfold dtwInit
    rw [if_neg (by simp)]
  have hp : backtrace (dtwFill [] [[(0 : ℝ)]])
      (List.length ([] : List (List ℝ))) (List.length [[(0 : ℝ)]]) = [] :=
    backtrace_zero_left _ _
  rw [hd, hp]
  simp

/-- C8 amended: the aligner performs no input validation; on an empty
input sequence it returns distance plus infinity (0 when both are empty)
together with an empty path instead of failing before computation. -/
theorem aligner_empty_behaviour (A B : List (List ℝ))
    (h : A = [] ∨ B = []) :
    compare_motion_sequences A B =
      ((if A = [] ∧ B = [] then (0 : EReal) else ⊤),
        ([] : List (ℕ × ℕ))) := by
  unfold compare_motion_sequences
  rcases h with rfl | rfl
  · have hp : backtrace (dtwFill ([] : List (List ℝ)) B)
        (List.length ([] : List (List ℝ))) B.length = [] :=
      backtrace_zero_left _ _
    rw [hp]
    rw [dtwFill_boundary [] B (List.length ([] : List (List ℝ))) B.length
      (Or.inl rfl)]
    unfold dtwInit
    simp only [List.reverse_nil, Prod.mk.injEq, List.length_nil]
    refine ⟨?_, trivial⟩
    split_ifs <;> simp_all [List.length_eq_zero]
  · have hp : backtrace (dtwFill A ([] : List (List ℝ))) A.length
        (List.length ([] : List (List ℝ))) = [] :=
      backtrace_zero_right _ _
    rw [hp]
    rw [dtwFill_boundary A [] A.length (List.length ([] : List (List ℝ)))
      (Or.inr rfl)]
    unfold dtwInit
    simp only [List.reverse_nil, Prod.mk.injEq, List.length_nil]
    refine ⟨?_, trivial⟩
    split_ifs <;> simp_all [List.length_eq_zero]

/-- Witness for the amended C8 at A = [], B = [[0]]. -/
theorem aligner_empty_behaviour_witness :
    compare_motion_sequences ([] : List (List ℝ)) [[(0 : ℝ)]] =
      ((if ([] : List (List ℝ)) = [] ∧ [[(0 : ℝ)]] = ([] : List (List ℝ))
          then (0 : EReal) else ⊤), ([] : List (ℕ × ℕ))) :=
  aligner_empty_behaviour [] [[(0 : ℝ)]] (Or.inl rfl)

/-- C9: the angle function always returns a value in [0, 180] degrees,
and returns exactly 0 (rather than failing) whenever either ray vector
has zero length, that is when p1 = p2 or p3 = p2. -/
theorem angle_bounds_and_degenerate (p1 p2 p3 : ℝ × ℝ) :
    0 ≤ calculate_angle p1 p2 p3 ∧ calculate_angle p1 p2 p3 ≤ 180 ∧
    (p1 = p2 → calculate_angle p1 p2 p3 = 0) ∧
    (p3 = p2 → calculate_angle p1 p2 p3 = 0) := by
  refine ⟨?_, ?_, ?_, ?_⟩
  · unfold calculate_angle
    split
    · exact le_refl 0
    · exact mul_nonneg (Real.arccos_nonneg _) (by positivity)
  · unfold calculate_angle
    split
    · norm_num
    · refine le_trans (mul_le_mul_of_nonneg_right (Real.arccos_le_pi _)
        (by positivity)) ?_
      rw [mul_comm, div_mul_cancel₀ _ Real.pi_ne_zero]
  · intro h
    subst h
    simp [calculate_angle]
  · intro h
    subst h
    simp [calculate_angle]

/-- Witness for C9: the angle is 0 at the degenerate input p1 = p2. -/
theorem angle_bounds_and_degenerate_witness :
    calculate_angle ((0 : ℝ), (0 : ℝ)) ((0 : ℝ), (0 : ℝ))
      ((1 : ℝ), (2 : ℝ)) = 0 :=
  (angle_bounds_and_degenerate ((0 : ℝ), (0 : ℝ)) ((0 : ℝ), (0 : ℝ))
    ((1 : ℝ), (2 : ℝ))).2.2.1 rfl

/-- C10: the backtrace tie-break is the lexicographic minimum of the
(cost, i, j) candidate tuples: when costs tie the diagonal predecessor
(i-1, j-1) is preferred over the vertical one (i-1, j), which is
preferred over the horizontal one (i, j-1). -/
theorem backtrace_tie_precedence (M : ℕ → ℕ → EReal) (i j : ℕ)
    (hi : 1 ≤ i) (hj : 1 ≤ j) :
    (M (i - 1) (j - 1) ≤ M (i - 1) j → M (i - 1) (j - 1) ≤ M i (j - 1) →
      nextCell M i j = (i - 1, j - 1)) ∧
    (M (i - 1) j < M (i - 1) (j - 1) → M (i - 1) j ≤ M i (j - 1) →
      nextCell M i j = (i - 1, j)) ∧
    (M i (j - 1) < M (i - 1) (j - 1) → M i (j - 1) < M (i - 1) j →
      nextCell M i j = (i, j - 1)) := by
  refine ⟨?_, ?_, ?_⟩
  · intro hdv hdw
    unfold nextCell pyMinT
    by_cases hvw : tLt (M i (j - 1), i, j - 1) (M (i - 1) j, i - 1, j)
    · rw [if_pos hvw]
      have hlast : tLt (M (i - 1) (j - 1), i - 1, j - 1)
          (M i (j - 1), i, j - 1) := by
        rcases lt_or_eq_of_le hdw with hlt | heq
        · exact Or.inl hlt
        · exact Or.inr ⟨heq, Or.inl (show i - 1 < i by omega)⟩
      rw [if_pos hlast]
    · rw [if_neg hvw]
      have hlast : tLt (M (i - 1) (j - 1), i - 1, j - 1)
          (M (i - 1) j, i - 1, j) := by
        rcases lt_or_eq_of_le hdv with hlt | heq
        · exact Or.inl hlt
        · exact Or.inr ⟨heq, Or.inr ⟨rfl, show j - 1 < j by omega⟩⟩
      rw [if_pos hlast]
  · intro hvd hvw
    unfold nextCell pyMinT
    have h1 : ¬ tLt (M i (j - 1), i, j - 1) (M (i - 1) j, i - 1, j) := by
      rintro (hlt | ⟨heq, hrest⟩)
      · exact absurd hlt (not_lt.mpr hvw)
      · rcases hrest with h2 | ⟨h2, _⟩
        · have h3 : i < i - 1 := h2
          omega
        · have h3 : i = i - 1 := h2
          omega
    rw [if_neg h1]
    have h2 : ¬ tLt (M (i - 1) (j - 1), i - 1, j - 1)
        (M (i - 1) j, i - 1, j) := by
      rintro (hlt | ⟨heq, _⟩)
      · exact lt_asymm hvd hlt
      · exact (ne_of_lt hvd) heq.symm
    rw [if_neg h2]
  · intro hwd hwv
    unfold nextCell pyMinT
    have h1 : tLt (M i (j - 1), i, j - 1) (M (i - 1) j, i - 1, j) :=
      Or.inl hwv
    rw [if_pos h1]
    have h2 : ¬ tLt (M (i - 1) (j - 1), i - 1, j - 1)
        (M i (j - 1), i, j - 1) := by
      rintro (hlt | ⟨heq, _⟩)
      · exact lt_asymm hwd hlt
      · exact (ne_of_lt hwd) heq.symm
    rw [if_neg h2]

/-- Witness for C10: on an all-zero cost matrix the diagonal predecessor
is chosen at cell (1, 1). -/
theorem backtrace_tie_precedence_witness :
    nextCell (fun _ _ => (0 : EReal)) 1 1 = (0, 0) := by
  have h := (backtrace_tie_precedence (fun _ _ => (0 : EReal)) 1 1
    (le_refl _) (le_refl _)).1 (le_refl _) (le_refl _)
  simpa using h
